import Mathlib

/-!
Verification of the MCTS agent in `agent.h` (class `MCTSplayer`).

The board/rules engine (`board.h`) and the move representation (`action.h`)
are external collaborators of the core; following the interface description
they are modelled abstractly: a board type `B`, a move type `M`, a partial
move application `place : B → M → Option B` (`some` = the move is legal and
yields the successor board, `none` = illegal, board unchanged), and a
turn query `whoTurn : B → Side`.  The shared shuffled candidate vector
`space` is modelled by a stream `σ : ℕ → List M` of enumeration orders,
one entry per call to `std::shuffle`; the agent threads a draw counter
through the search exactly as the C++ engine state advances.

Doubles are modelled by real numbers; `int` counters by `ℕ` (they start at
0 and are only ever incremented).  The search tree is a purely functional
tree; the C++ parent pointers are represented by paths (lists of child
indices) from the root, and `backpropagation` walks such a path, bumping
every node on it — leaf through root inclusive — exactly as the C++ loop
walks `node->parent` up to the root.
-/

namespace NoGo

/-- Piece colour of a mover (`board::piece_type` restricted to the two
values that ever reach a node's `placer` field). -/
inductive Side : Type where
  | black : Side
  | white : Side
deriving DecidableEq

/-- `MCTSplayer::reverse_player`: swap sides. -/
def reverse_player : Side → Side
  | Side.black => Side.white
  | Side.white => Side.black

/-- `MCTSplayer::Node`: `placer`, `node_move` (the root keeps the
default-constructed sentinel, modelled `none`), visit count `n`,
reward sum `w`, and the owned `children` vector. -/
inductive Node (M : Type) : Type where
  | mk (placer : Side) (node_move : Option M) (n : ℕ) (w : ℕ)
       (children : List (Node M)) : Node M

namespace Node

def placer {M : Type} : Node M → Side
  | mk p _ _ _ _ => p

def node_move {M : Type} : Node M → Option M
  | mk _ mv _ _ _ => mv

def n {M : Type} : Node M → ℕ
  | mk _ _ n _ _ => n

def w {M : Type} : Node M → ℕ
  | mk _ _ _ w _ => w

def children {M : Type} : Node M → List (Node M)
  | mk _ _ _ _ cs => cs

/-- `Node::is_unvisited`. -/
def is_unvisited {M : Type} (node : Node M) : Bool :=
  node.n == 0

@[simp] theorem placer_mk {M : Type} (p mv n w cs) :
    (Node.mk (M := M) p mv n w cs).placer = p := rfl

@[simp] theorem node_move_mk {M : Type} (p mv n w cs) :
    (Node.mk (M := M) p mv n w cs).node_move = mv := rfl

@[simp] theorem n_mk {M : Type} (p mv n w cs) :
    (Node.mk (M := M) p mv n w cs).n = n := rfl

@[simp] theorem w_mk {M : Type} (p mv n w cs) :
    (Node.mk (M := M) p mv n w cs).w = w := rfl

@[simp] theorem children_mk {M : Type} (p mv n w cs) :
    (Node.mk (M := M) p mv n w cs).children = cs := rfl

theorem sizeOf_lt_of_mem_children {M : Type} [SizeOf M] {ch node : Node M}
    (h : ch ∈ node.children) : sizeOf ch < sizeOf node := by
  cases node with
  | mk p mv n w cs =>
    have hlt : sizeOf ch < sizeOf cs := List.sizeOf_lt_of_mem h
    simp only [Node.mk.sizeOf_spec]
    omega

end Node

section Core

variable {B M : Type}
variable (place : B → M → Option B) (whoTurn : B → Side) (who : Side)
variable (σ : ℕ → List M)

/-- `DBL_MAX` (the largest finite IEEE-754 double), as a real number. -/
noncomputable def DBL_MAX : ℝ := (2 ^ 53 - 1) * 2 ^ 971

/-- The exploration constant hard-coded at the `select_child` call site
inside `MCTSplayer::select` (the search loop). -/
noncomputable def searchC : ℝ := 0.5

/-- The exploration constant passed to `select_child` for the final move
decision in `MCTSplayer::take_action`. -/
noncomputable def finalC : ℝ := 0.000000000001

/-- The UCT score computed for a child inside `select_child`:
`DBL_MAX` for an unvisited child, otherwise
`(child->w / child->n) + c * sqrt(log(root->n)/child->n)`.
`child->w / child->n` is C++ `int` division, hence `ℕ` division here. -/
noncomputable def uct_score (c : ℝ) (rootN : ℕ) (child : Node M) : ℝ :=
  if child.is_unvisited then DBL_MAX
  else ((child.w / child.n : ℕ) : ℝ) + c * Real.sqrt (Real.log rootN / child.n)

/-- The argmax loop body of `select_child`: running maximum `m`, current
best child (paired with its index in the `children` vector) and the strict
comparison `uct_score > max_score`, so a later equal score never replaces
the current best.  `best = none` models the not-yet-assigned
`best_child`. -/
noncomputable def pickGo {α : Type} (g : α → ℝ) :
    ℝ → Option (ℕ × α) → ℕ → List α → Option (ℕ × α)
  | _, best, _, [] => best
  | m, best, i, x :: xs =>
    if m < g x then pickGo g (g x) (some (i, x)) (i + 1) xs
    else pickGo g m best (i + 1) xs

/-- Applying a node's move to the working board, the way
`state.place(best_child->node_move.position())` does: the board advances
when the move is legal and is left unchanged otherwise; the root's
sentinel move leaves the board unchanged. -/
def apply_move (st : B) : Option M → B
  | none => st
  | some m => (place st m).getD st

/-- `MCTSplayer::select_child`: `NULL` on a childless node, otherwise the
first child attaining the strictly-greatest UCT score (starting from
`max_score = -1`), with the working board advanced by that child's move.
The returned index records the child's position in `children`. -/
noncomputable def select_child (c : ℝ) (rootN : ℕ) (node : Node M) (st : B) :
    Option (ℕ × Node M × B) :=
  match node.children with
  | [] => none
  | _ :: _ =>
    match pickGo (uct_score c rootN) (-1) none 0 node.children with
    | none => none
    | some (i, ch) => some (i, ch, apply_move place st ch.node_move)

theorem pickGo_mem {α : Type} (g : α → ℝ) :
    ∀ (l : List α) (m : ℝ) (best : Option (ℕ × α)) (i : ℕ) {j : ℕ} {x : α},
      pickGo g m best i l = some (j, x) → best = some (j, x) ∨ x ∈ l := by
  intro l
  induction l with
  | nil =>
    intro m best i j x h
    simp only [pickGo] at h
    exact Or.inl h
  | cons a tl ih =>
    intro m best i j x h
    simp only [pickGo] at h
    by_cases hc : m < g a
    · rw [if_pos hc] at h
      rcases ih (g a) (some (i, a)) (i + 1) h with h' | h'
      · cases h'
        exact Or.inr (List.mem_cons_self a tl)
      · exact Or.inr (List.mem_cons_of_mem a h')
    · rw [if_neg hc] at h
      rcases ih m best (i + 1) h with h' | h'
      · exact Or.inl h'
      · exact Or.inr (List.mem_cons_of_mem a h')

theorem pickGo_const {α : Type} (g : α → ℝ) :
    ∀ (l : List α) (m : ℝ) (best : Option (ℕ × α)) (i : ℕ),
      (∀ x ∈ l, g x ≤ m) → pickGo g m best i l = best := by
  intro l
  induction l with
  | nil => intro m best i _; rfl
  | cons a tl ih =>
    intro m best i h
    have ha : g a ≤ m := h a (List.mem_cons_self a tl)
    simp only [pickGo, if_neg (not_lt.mpr ha)]
    exact ih m best (i + 1) (fun x hx => h x (List.mem_cons_of_mem a hx))

theorem pickGo_first_argmax {α : Type} (g : α → ℝ) :
    ∀ (l : List α) (m : ℝ) (i : ℕ) (best : Option (ℕ × α)),
      (∃ x ∈ l, m < g x) →
      ∃ j x, l.get? j = some x ∧ pickGo g m best i l = some (i + j, x) ∧ m < g x ∧
        (∀ k xk, l.get? k = some xk → g xk ≤ g x) ∧
        (∀ k xk, k < j → l.get? k = some xk → g xk < g x) := by
  intro l
  induction l with
  | nil =>
    rintro m i best ⟨x, hx, _⟩
    exact absurd hx (List.not_mem_nil x)
  | cons a tl ih =>
    rintro m i best ⟨x0, hx0, hlt0⟩
    by_cases hc : m < g a
    · simp only [pickGo, if_pos hc]
      by_cases h2 : ∃ x ∈ tl, g a < g x
      · obtain ⟨j', x', hget, heq, hlt, hmax, hearly⟩ := ih (g a) (i + 1) (some (i, a)) h2
        have hidx : i + 1 + j' = i + (j' + 1) := by omega
        refine ⟨j' + 1, x', by simpa using hget, by rw [heq, hidx], lt_trans hc hlt, ?_, ?_⟩
        · intro k xk hk
          cases k with
          | zero =>
            rw [List.get?_cons_zero, Option.some.injEq] at hk
            rw [← hk]
            exact le_of_lt hlt
          | succ k' =>
            rw [List.get?_cons_succ] at hk
            exact hmax k' xk hk
        · intro k xk hkj hk
          cases k with
          | zero =>
            rw [List.get?_cons_zero, Option.some.injEq] at hk
            rw [← hk]
            exact hlt
          | succ k' =>
            rw [List.get?_cons_succ] at hk
            exact hearly k' xk (by omega) hk
      · push_neg at h2
        have heq := pickGo_const g tl (g a) (some (i, a)) (i + 1) h2
        refine ⟨0, a, rfl, by rw [heq]; rfl, hc, ?_, ?_⟩
        · intro k xk hk
          cases k with
          | zero =>
            rw [List.get?_cons_zero, Option.some.injEq] at hk
            rw [← hk]
          | succ k' =>
            rw [List.get?_cons_succ] at hk
            exact h2 xk (List.get?_mem hk)
        · intro k xk hkj _
          exact absurd hkj (by omega)
    · simp only [pickGo, if_neg hc]
      have hx0tl : x0 ∈ tl := by
        rcases List.mem_cons.mp hx0 with rfl | h
        · exact absurd hlt0 hc
        · exact h
      obtain ⟨j', x', hget, heq, hlt, hmax, hearly⟩ := ih m (i + 1) best ⟨x0, hx0tl, hlt0⟩
      have hidx : i + 1 + j' = i + (j' + 1) := by omega
      have ham : g a ≤ m := not_lt.mp hc
      refine ⟨j' + 1, x', by simpa using hget, by rw [heq, hidx], hlt, ?_, ?_⟩
      · intro k xk hk
        cases k with
        | zero =>
          rw [List.get?_cons_zero, Option.some.injEq] at hk
          rw [← hk]
          exact le_trans ham (le_of_lt hlt)
        | succ k' =>
          rw [List.get?_cons_succ] at hk
          exact hmax k' xk hk
      · intro k xk hkj hk
        cases k with
        | zero =>
          rw [List.get?_cons_zero, Option.some.injEq] at hk
          rw [← hk]
          exact lt_of_le_of_lt ham hlt
        | succ k' =>
          rw [List.get?_cons_succ] at hk
          exact hearly k' xk (by omega) hk

theorem find?_first {α : Type} (p : α → Bool) :
    ∀ (l : List α) {u : α}, l.find? p = some u →
      ∃ j, l.get? j = some u ∧ p u = true ∧
        ∀ k x, k < j → l.get? k = some x → p x = false := by
  intro l
  induction l with
  | nil => intro u h; exact absurd h (by simp)
  | cons a tl ih =>
    intro u h
    cases hp : p a with
    | true =>
      rw [List.find?_cons_of_pos tl hp, Option.some.injEq] at h
      subst h
      exact ⟨0, rfl, hp, fun k x hk _ => absurd hk (by omega)⟩
    | false =>
      rw [List.find?_cons_of_neg tl (by simp [hp])] at h
      obtain ⟨j, hget, hu, hearly⟩ := ih h
      refine ⟨j + 1, by simpa using hget, hu, ?_⟩
      intro k x hk hx
      cases k with
      | zero =>
        rw [List.get?_cons_zero, Option.some.injEq] at hx
        rw [← hx]
        exact hp
      | succ k' =>
        rw [List.get?_cons_succ] at hx
        exact hearly k' x (by omega) hx

theorem select_child_mem {c : ℝ} {rootN : ℕ} {node : Node M} {st : B}
    {i : ℕ} {ch : Node M} {st' : B}
    (h : select_child place c rootN node st = some (i, ch, st')) :
    ch ∈ node.children := by
  unfold select_child at h
  rcases hcs : node.children with _ | ⟨a, tl⟩
  · rw [hcs] at h; exact absurd h (by simp)
  · rw [hcs] at h
    rcases hp : pickGo (uct_score c rootN) (-1) none 0 (a :: tl) with _ | ⟨j, x⟩
    · rw [hp] at h; exact absurd h (by simp)
    · rw [hp] at h
      simp only [Option.some.injEq, Prod.mk.injEq] at h
      rcases pickGo_mem (uct_score c rootN) (a :: tl) (-1) none 0 hp with h' | h'
      · exact absurd h' (by simp)
      · rw [← h.2.1]
        exact h'

theorem select_child_eq_of_ne_nil {c : ℝ} {rootN : ℕ} {node : Node M} {st : B}
    (hne : node.children ≠ []) :
    select_child place c rootN node st =
      match pickGo (uct_score c rootN) (-1) none 0 node.children with
      | none => none
      | some (i, ch) => some (i, ch, apply_move place st ch.node_move) := by
  unfold select_child
  rcases hcs : node.children with _ | ⟨a, tl⟩
  · exact absurd hcs hne
  · rfl

/-- `MCTSplayer::select`: descend from `node` while the current node has
children, stepping to the child chosen by `select_child` with the
hard-coded exploration constant `0.5` (`searchC`) and the *root's* visit
total `rootN`; stop at the first node `select_child` returns `NULL` on
(i.e. a childless node).  Returns the path of child indices taken, the
reached leaf, and the advanced working board. -/
noncomputable def select (rootN : ℕ) (node : Node M) (st : B) :
    List ℕ × Node M × B :=
  match hsc : select_child place searchC rootN node st with
  | none => ([], node, st)
  | some (i, ch, st') =>
    let r := select rootN ch st'
    (i :: r.1, r.2.1, r.2.2)
termination_by sizeOf node
decreasing_by
  exact Node.sizeOf_lt_of_mem_children (select_child_mem place hsc)

/-- The child-creating loop of `MCTSplayer::expand`: for each candidate
move of the shuffled order, probe it on a copy of the snapshot `st` and,
when legal, append a fresh node with `placer = reverse_player(node->placer)`,
`node_move` = the candidate, and `n = w = 0`. -/
def expand_children (st : B) (pl : Side) : List M → List (Node M)
  | [] => []
  | m :: ms =>
    match place st m with
    | some _ => Node.mk (reverse_player pl) (some m) 0 0 [] :: expand_children st pl ms
    | none => expand_children st pl ms

/-- `MCTSplayer::expand` on the node it mutates: the children found legal
from the snapshot are appended to `node->children`, and the returned flag
is `children.size() == 0` after the append (true iff the position is
terminal). -/
def expand (st : B) (order : List M) (node : Node M) : Node M × Bool :=
  match node with
  | Node.mk pl mv n w cs =>
    let kids := cs ++ expand_children place st pl order
    (Node.mk pl mv n w kids, kids.isEmpty)

/-- One full pass of the rollout loop body in `MCTSplayer::simulate`: walk
the shuffled order once; every move that is legal against the *current*
rollout board is applied to it (there is no break — the pass continues
after an application), and the flag records whether any move was applied
during the pass. -/
def simulate_pass (st : B) (flag : Bool) : List M → B × Bool
  | [] => (st, flag)
  | m :: ms =>
    match place st m with
    | some st' => simulate_pass st' true ms
    | none => simulate_pass st flag ms

/-- The `while(has_leagal_move)` loop of `MCTSplayer::simulate`: shuffle
(consume the next enumeration order), run a pass, and repeat while the
pass applied at least one move.  The C++ loop terminates because the game
is finite; the abstract board model carries no such bound, so an explicit
fuel argument bounds the number of passes. -/
def simulate_loop : ℕ → ℕ → B → B × ℕ
  | 0, k, st => (st, k)
  | fuel + 1, k, st =>
    match simulate_pass place st false (σ k) with
    | (st', true) => simulate_loop fuel (k + 1) st'
    | (st', false) => (st', k + 1)

/-- `MCTSplayer::simulate`: roll the board to a position where a full pass
applies no move, then report `0` if the side to take a turn there is the
agent's own side `who`, else `1`.  Also returns the advanced shuffle
counter. -/
def simulate (fuel k : ℕ) (st : B) : ℕ × ℕ :=
  match simulate_loop place σ fuel k st with
  | (stf, kf) => (if whoTurn stf = who then 0 else 1, kf)

/-- `MCTSplayer::backpropagation`, expressed on the functional tree: the
C++ walks `node->parent` from the selected leaf up to the root and does
`n++; w += result` at every node on the way; here the same set of nodes
is reached by walking the recorded root-to-leaf path downward, bumping
every node on it (root and leaf inclusive). -/
def backpropagation (result : ℕ) : List ℕ → Node M → Node M
  | [], Node.mk pl mv n w cs => Node.mk pl mv (n + 1) (w + result) cs
  | i :: p, Node.mk pl mv n w cs =>
    match cs.get? i with
    | none => Node.mk pl mv (n + 1) (w + result) cs
    | some ch => Node.mk pl mv (n + 1) (w + result) (cs.set i (backpropagation result p ch))

/-- Rewrite the node sitting at `path` inside the tree (used to attach the
children `expand` creates to the selected leaf). -/
def update_at (f : Node M → Node M) : List ℕ → Node M → Node M
  | [], node => f node
  | i :: p, node =>
    match node with
    | Node.mk pl mv n w cs =>
      match cs.get? i with
      | none => Node.mk pl mv n w cs
      | some ch => Node.mk pl mv n w (cs.set i (update_at f p ch))

/-- One iteration of the search loop in `MCTSplayer::take_action`:
selection from the root on a fresh copy of the input board, expansion and
application of the leaf's own move when the leaf is unvisited, rollout,
and backpropagation along the selected path.  `k` is the shuffle counter
(expansion consumes one draw, each rollout pass one more). -/
noncomputable def iter_once (fuel : ℕ) (b0 : B) (s : Node M × ℕ) : Node M × ℕ :=
  match select place s.1.n s.1 b0 with
  | (path, leaf, b1) =>
    if leaf.n = 0 then
      let tree' := update_at (fun nd => (expand place b1 (σ s.2) nd).1) path s.1
      let b2 := apply_move place b1 leaf.node_move
      match simulate place whoTurn who σ fuel (s.2 + 1) b2 with
      | (result, k') => (backpropagation result path tree', k')
    else
      match simulate place whoTurn who σ fuel s.2 b1 with
      | (result, k') => (backpropagation result path s.1, k')

/-- The `for(int i=0; i<simulation_times; i++)` loop. -/
noncomputable def search_loop (fuel : ℕ) (b0 : B) : ℕ → Node M × ℕ → Node M × ℕ
  | 0, s => s
  | t + 1, s => search_loop fuel b0 t (iter_once place whoTurn who σ fuel b0 s)

/-- The root built at the start of `MCTSplayer::take_action`
(`placer = reverse_player(who)`, no move, `n = w = 0`, no children). -/
def root0 : Node M := Node.mk (reverse_player who) none 0 0 []

/-- The tree owned by one decision after its search loop finished. -/
noncomputable def final_tree (fuel t : ℕ) (b : B) : Node M :=
  (search_loop place whoTurn who σ fuel b t (root0 who, 0)).1

/-- `MCTSplayer::take_action`: run `simulation_times` iterations, then ask
`select_child` once more on the root — with the near-zero exploration
constant and a fresh copy of the input board — and return the chosen
child's move; `none` models the default-constructed `action()` returned
when there is no best child. -/
noncomputable def take_action (fuel t : ℕ) (b : B) : Option M :=
  let tree := final_tree place whoTurn who σ fuel t b
  match select_child place finalC tree.n tree b with
  | some (_, ch, _) => ch.node_move
  | none => none

/-- The first legal candidate of an enumeration order, applied: `some`
of the successor board for the first move the board accepts, `none` when
the whole pass contains no legal move. -/
def first_legal (st : B) : List M → Option B
  | [] => none
  | m :: ms =>
    match place st m with
    | some st' => some st'
    | none => first_legal st ms

/-- The rollout loop as the specification words it (for comparison with
`simulate`): enumerate moves in randomized order, apply exactly the first
legal one found, then re-enumerate in a fresh order; stop when a full
randomized pass contains no legal move. -/
def simulate_spec_loop : ℕ → ℕ → B → B × ℕ
  | 0, k, st => (st, k)
  | fuel + 1, k, st =>
    match first_legal place st (σ k) with
    | some st' => simulate_spec_loop fuel (k + 1) st'
    | none => (st, k + 1)

/-- Outcome of the specification-worded rollout, with the same
terminal-position scoring as `simulate`. -/
def simulate_spec (fuel k : ℕ) (st : B) : ℕ :=
  match simulate_spec_loop place σ fuel k st with
  | (stf, _) => if whoTurn stf = who then 0 else 1

theorem simulate_pass_flag_true (st : B) (order : List M) :
    (simulate_pass place st true order).2 = true := by
  induction order generalizing st with
  | nil => rfl
  | cons m ms ih =>
    simp only [simulate_pass]
    cases place st m with
    | some st' => exact ih st'
    | none => exact ih st

theorem simulate_pass_of_no_legal (st : B) (f : Bool) (order : List M)
    (h : ∀ m ∈ order, place st m = none) :
    simulate_pass place st f order = (st, f) := by
  induction order with
  | nil => rfl
  | cons m ms ih =>
    simp only [simulate_pass]
    rw [h m (List.mem_cons_self m ms)]
    exact ih (fun m' hm' => h m' (List.mem_cons_of_mem m hm'))

theorem simulate_pass_no_move_of_flag_false (st : B) (order : List M)
    {st' : B} (h : simulate_pass place st false order = (st', false)) :
    st' = st ∧ ∀ m ∈ order, place st m = none := by
  induction order with
  | nil =>
    simp only [simulate_pass] at h
    exact ⟨(Prod.mk.injEq .. ▸ h).1.symm ▸ rfl, by simp⟩
  | cons m ms ih =>
    simp only [simulate_pass] at h
    cases hm : place st m with
    | some st2 =>
      rw [hm] at h
      replace h : simulate_pass place st2 true ms = (st', false) := h
      have : (simulate_pass place st2 true ms).2 = true :=
        simulate_pass_flag_true place st2 ms
      rw [h] at this
      exact absurd this (by simp)
    | none =>
      rw [hm] at h
      replace h : simulate_pass place st false ms = (st', false) := h
      obtain ⟨h1, h2⟩ := ih h
      refine ⟨h1, fun m' hm' => ?_⟩
      rcases List.mem_cons.mp hm' with rfl | hmem
      · exact hm
      · exact h2 m' hmem

theorem DBL_MAX_pos : (0 : ℝ) < DBL_MAX := by
  unfold DBL_MAX
  norm_num

theorem neg_one_lt_DBL_MAX : (-1 : ℝ) < DBL_MAX :=
  lt_trans (by norm_num) DBL_MAX_pos

theorem is_unvisited_iff (child : Node M) : child.is_unvisited = true ↔ child.n = 0 := by
  unfold Node.is_unvisited
  simp

theorem uct_score_unvisited (c : ℝ) (rootN : ℕ) (child : Node M) (h : child.n = 0) :
    uct_score c rootN child = DBL_MAX := by
  unfold uct_score
  rw [if_pos ((is_unvisited_iff child).mpr h)]

theorem uct_score_visited (c : ℝ) (rootN : ℕ) (child : Node M) (h : child.n ≠ 0) :
    uct_score c rootN child =
      ((child.w / child.n : ℕ) : ℝ) + c * Real.sqrt (Real.log rootN / child.n) := by
  unfold uct_score
  rw [if_neg (fun hco => h ((is_unvisited_iff child).mp hco))]

theorem uct_score_nonneg_of_visited (c : ℝ) (rootN : ℕ) (child : Node M)
    (hc : 0 ≤ c) (h : child.n ≠ 0) : 0 ≤ uct_score c rootN child := by
  rw [uct_score_visited c rootN child h]
  have h1 : (0 : ℝ) ≤ ((child.w / child.n : ℕ) : ℝ) := Nat.cast_nonneg _
  have h2 : (0 : ℝ) ≤ c * Real.sqrt (Real.log rootN / child.n) :=
    mul_nonneg hc (Real.sqrt_nonneg _)
  linarith

theorem uct_score_lt_DBL_MAX (c : ℝ) (rootN : ℕ) (child : Node M)
    (hw : child.w ≤ child.n) (hn : child.n ≠ 0) (hN : rootN ≤ 2 ^ 62)
    (hc0 : 0 ≤ c) (hc2 : c ≤ 2) : uct_score c rootN child < DBL_MAX := by
  rw [uct_score_visited c rootN child hn]
  have hdivnat : child.w / child.n ≤ 1 := by
    have h1 := Nat.div_le_div_right (c := child.n) hw
    rwa [Nat.div_self (Nat.pos_of_ne_zero hn)] at h1
  have h1 : ((child.w / child.n : ℕ) : ℝ) ≤ 1 := by exact_mod_cast hdivnat
  have hlog0 : 0 ≤ Real.log rootN := Real.log_natCast_nonneg rootN
  have hlogN : Real.log rootN ≤ 2 ^ 62 := by
    rcases Nat.eq_zero_or_pos rootN with h0 | hpos
    · rw [h0]
      norm_num
    · have ha : Real.log rootN ≤ (rootN : ℝ) - 1 :=
        Real.log_le_sub_one_of_pos (by exact_mod_cast hpos)
      have hb : (rootN : ℝ) ≤ 2 ^ 62 := by exact_mod_cast hN
      linarith
  have hdiv : Real.log rootN / child.n ≤ 2 ^ 62 := by
    have hn1 : (1 : ℝ) ≤ (child.n : ℝ) := by
      exact_mod_cast Nat.one_le_iff_ne_zero.mpr hn
    exact le_trans (div_le_self hlog0 hn1) hlogN
  have hsqrt : Real.sqrt (Real.log rootN / child.n) ≤ 2 ^ 31 := by
    have ha := Real.sqrt_le_sqrt hdiv
    have hb : Real.sqrt ((2 : ℝ) ^ 62) = 2 ^ 31 := by
      rw [show ((2 : ℝ) ^ 62) = (2 ^ 31) ^ 2 by ring]
      exact Real.sqrt_sq (by positivity)
    rw [hb] at ha
    exact ha
  have h2 : c * Real.sqrt (Real.log rootN / child.n) ≤ 2 * 2 ^ 31 :=
    mul_le_mul hc2 hsqrt (Real.sqrt_nonneg _) (by norm_num)
  have h3 : (1 : ℝ) + 2 * 2 ^ 31 < DBL_MAX := by
    unfold DBL_MAX
    norm_num
  linarith

theorem uct_score_le_DBL_MAX (c : ℝ) (rootN : ℕ) (child : Node M)
    (hw : child.w ≤ child.n) (hN : rootN ≤ 2 ^ 62)
    (hc0 : 0 ≤ c) (hc2 : c ≤ 2) : uct_score c rootN child ≤ DBL_MAX := by
  rcases Nat.eq_zero_or_pos child.n with h0 | hpos
  · exact le_of_eq (uct_score_unvisited c rootN child h0)
  · exact le_of_lt (uct_score_lt_DBL_MAX c rootN child hw
      (Nat.pos_iff_ne_zero.mp hpos) hN hc0 hc2)

theorem backpropagation_n (result : ℕ) (p : List ℕ) (node : Node M) :
    (backpropagation result p node).n = node.n + 1 := by
  cases p with
  | nil => cases node; rfl
  | cons i p' =>
    cases node with
    | mk pl mv n w cs =>
      simp only [backpropagation]
      cases cs.get? i <;> rfl

theorem backpropagation_nil_children (result : ℕ) (node : Node M) :
    (backpropagation result [] node).children = node.children := by
  cases node; rfl

theorem expand_fst_n (st : B) (order : List M) (node : Node M) :
    (expand place st order node).1.n = node.n := by
  cases node; rfl

theorem update_at_n (f : Node M → Node M) (hf : ∀ nd : Node M, (f nd).n = nd.n)
    (p : List ℕ) (node : Node M) : (update_at f p node).n = node.n := by
  cases p with
  | nil => exact hf node
  | cons i p' =>
    cases node with
    | mk pl mv n w cs =>
      simp only [update_at]
      cases cs.get? i <;> rfl

theorem iter_once_n (fuel : ℕ) (b0 : B) (s : Node M × ℕ) :
    (iter_once place whoTurn who σ fuel b0 s).1.n = s.1.n + 1 := by
  unfold iter_once
  rcases hsel : select place s.1.n s.1 b0 with ⟨path, leaf, b1⟩
  dsimp only
  by_cases h0 : leaf.n = 0
  · rw [if_pos h0]
    rcases hsim : simulate place whoTurn who σ fuel (s.2 + 1)
      (apply_move place b1 leaf.node_move) with ⟨result, k'⟩
    show (backpropagation result path _).n = s.1.n + 1
    rw [backpropagation_n]
    rw [update_at_n _ (fun nd => expand_fst_n place b1 (σ s.2) nd) path s.1]
  · rw [if_neg h0]
    rcases hsim : simulate place whoTurn who σ fuel s.2 b1 with ⟨result, k'⟩
    show (backpropagation result path s.1).n = s.1.n + 1
    rw [backpropagation_n]

theorem search_loop_n (fuel : ℕ) (b0 : B) :
    ∀ (t : ℕ) (s : Node M × ℕ),
      (search_loop place whoTurn who σ fuel b0 t s).1.n = s.1.n + t := by
  intro t
  induction t with
  | zero => intro s; rfl
  | succ t ih =>
    intro s
    show (search_loop place whoTurn who σ fuel b0 t
      (iter_once place whoTurn who σ fuel b0 s)).1.n = s.1.n + (t + 1)
    rw [ih (iter_once place whoTurn who σ fuel b0 s),
      iter_once_n place whoTurn who σ fuel b0 s]
    omega

theorem expand_children_eq (st : B) (pl : Side) (order : List M) :
    expand_children place st pl order =
      (order.filter (fun m => (place st m).isSome)).map
        (fun m => Node.mk (reverse_player pl) (some m) 0 0 []) := by
  induction order with
  | nil => rfl
  | cons m ms ih =>
    simp only [expand_children]
    cases hm : place st m with
    | some st' => simp [List.filter_cons, hm, ih]
    | none => simp [List.filter_cons, hm, ih]

end Core

/-- A concrete instance of the external board interface used to separate
the implemented rollout from the specified one: boards are the list of
moves placed so far, any move is legal while fewer than two moves have
been placed, and the side to take a turn is `white` exactly on the board
`[0, 1]`. -/
def demoPlace : List ℕ → ℕ → Option (List ℕ) :=
  fun b m => if b.length < 2 then some (b ++ [m]) else none

/-- Turn query of the demo board instance. -/
def demoWho : List ℕ → Side :=
  fun b => if b = [0, 1] then Side.white else Side.black

/-- A shuffle stream that always produces the enumeration order `[0, 1]`. -/
def demoOrders : ℕ → List ℕ := fun _ => [0, 1]

/-- C3, counterexample: the rollout loop of `MCTSplayer::simulate` does
not apply exactly the first legal move of a pass and then re-enumerate —
its inner `for` has no break, so a single pass applies every move that is
legal when reached.  On the demo board instance (two placements allowed,
`white` to move exactly after placements `[0, 1]`, constant enumeration
order `[0, 1]`, agent plays `black`) the implemented rollout places both
`0` and `1` inside the first pass and scores `1`, while the rollout the
claim describes places `0`, re-enumerates, places `0` again and scores
`0`. -/
theorem rollout_single_move_per_pass_refuted :
    (simulate demoPlace demoWho Side.black demoOrders 3 0 []).1 = 1 ∧
    simulate_spec demoPlace demoWho Side.black demoOrders 4 0 [] = 0 ∧
    (simulate demoPlace demoWho Side.black demoOrders 3 0 []).1 ≠
      simulate_spec demoPlace demoWho Side.black demoOrders 4 0 [] := by
  refine ⟨by decide, by decide, by decide⟩

/-- C3, amended: each rollout pass walks one freshly drawn enumeration
order and applies *every* candidate that is legal against the current
rollout board at the moment it is considered, continuing the same pass
after each application; a pass reports no application exactly when none
of its candidates is legal against the board it started from, and the
rollout loop repeats while a pass applied something and stops as soon as
a full pass applied nothing. -/
theorem rollout_pass_applies_every_legal_move {B M : Type}
    (place : B → M → Option B) (σ : ℕ → List M) :
    (∀ (st st' : B) (m : M) (ms : List M) (f : Bool), place st m = some st' →
       simulate_pass place st f (m :: ms) = simulate_pass place st' true ms) ∧
    (∀ (st : B) (m : M) (ms : List M) (f : Bool), place st m = none →
       simulate_pass place st f (m :: ms) = simulate_pass place st f ms) ∧
    (∀ (st : B) (order : List M),
       simulate_pass place st false order = (st, false) ↔
         ∀ m ∈ order, place st m = none) ∧
    (∀ (fuel k : ℕ) (st st' : B), simulate_pass place st false (σ k) = (st', false) →
       simulate_loop place σ (fuel + 1) k st = (st', k + 1)) ∧
    (∀ (fuel k : ℕ) (st st' : B), simulate_pass place st false (σ k) = (st', true) →
       simulate_loop place σ (fuel + 1) k st = simulate_loop place σ fuel (k + 1) st') := by
  refine ⟨?_, ?_, ?_, ?_, ?_⟩
  · intro st st' m ms f h
    simp only [simulate_pass, h]
  · intro st m ms f h
    simp only [simulate_pass, h]
  · intro st order
    constructor
    · intro h
      exact (simulate_pass_no_move_of_flag_false place st order h).2
    · intro h
      exact simulate_pass_of_no_legal place st false order h
  · intro fuel k st st' h
    simp only [simulate_loop, h]
  · intro fuel k st st' h
    simp only [simulate_loop, h]

/-- Witness for the amended C3 theorem: on the demo instance, a legal
move is applied and the same pass continues; a pass over a full board
applies nothing and the loop stops, returning the board unchanged. -/
theorem rollout_pass_applies_every_legal_move_witness :
    simulate_pass demoPlace ([] : List ℕ) false [0, 1] =
      simulate_pass demoPlace [0] true [1] ∧
    simulate_loop demoPlace demoOrders (2 + 1) 0 [5, 6] = ([5, 6], 0 + 1) := by
  constructor
  · exact (rollout_pass_applies_every_legal_move demoPlace demoOrders).1
      [] [0] 0 [1] false (by decide)
  · exact (rollout_pass_applies_every_legal_move demoPlace demoOrders).2.2.2.1
      2 0 [5, 6] [5, 6] (by decide)

/-- C5: expanding a leaf (a node with no children) creates, for every
candidate move of the enumeration order that is legal from the board
snapshot, exactly one new child — `placer` the opposite of the leaf's
`placer`, `node_move` the candidate, `n = w = 0` — attached in enumerator
order as the leaf's own `children` (the functional rendering of
`parent = leaf`); the leaf's other fields are untouched, and the returned
terminal flag is true iff no candidate was legal, i.e. iff no child was
created. -/
theorem expand_creates_exactly_legal_children {B M : Type}
    (place : B → M → Option B) (st : B) (order : List M) (node : Node M)
    (hleaf : node.children = []) :
    (expand place st order node).1.children =
      (order.filter (fun m => (place st m).isSome)).map
        (fun m => Node.mk (reverse_player node.placer) (some m) 0 0 []) ∧
    (expand place st order node).1.placer = node.placer ∧
    (expand place st order node).1.node_move = node.node_move ∧
    (expand place st order node).1.n = node.n ∧
    (expand place st order node).1.w = node.w ∧
    ((expand place st order node).2 = true ↔ ∀ m ∈ order, place st m = none) := by
  cases node with
  | mk pl mv n w cs =>
    simp only [Node.children_mk] at hleaf
    subst hleaf
    refine ⟨expand_children_eq place st pl order, rfl, rfl, rfl, rfl, ?_⟩
    show (expand_children place st pl order).isEmpty = true ↔ _
    rw [List.isEmpty_iff, expand_children_eq place st pl order,
      List.map_eq_nil_iff, List.filter_eq_nil_iff]
    constructor
    · intro h m hm
      exact Option.not_isSome_iff_eq_none.mp (h m hm)
    · intro h m hm
      rw [h m hm]
      simp

/-- Witness for C5: expanding a black-mover leaf on the empty demo board
with order `[0, 1]` (both legal) creates exactly the two white-mover
children with `n = w = 0`, and the terminal flag is false. -/
theorem expand_creates_exactly_legal_children_witness :
    (expand demoPlace [] [0, 1] (Node.mk Side.black none 3 2 [])).1.children =
      [Node.mk Side.white (some 0) 0 0 [], Node.mk Side.white (some 1) 0 0 []] ∧
    (expand demoPlace [] [0, 1] (Node.mk Side.black none 3 2 [])).2 = false := by
  have h := expand_creates_exactly_legal_children demoPlace []
    [0, 1] (Node.mk Side.black none 3 2 []) rfl
  refine ⟨h.1.trans rfl, ?_⟩
  cases hb : (expand demoPlace [] [0, 1] (Node.mk Side.black none 3 2 [])).2 with
  | false => rfl
  | true =>
    have hall := h.2.2.2.2.2.mp hb
    have h0 := hall 0 (by decide)
    exact absurd h0 (by decide)

/-- C4: when `select_child` is evaluated on a node that has an unvisited
child (the first such child being `u`, as found by a first-match scan),
and the visited children's statistics are in range (`w ≤ n`, root visits
bounded by the `int`-range bound `2 ^ 62`, exploration constant in
`[0, 2]`, which covers all three constants in the source), the child
returned is exactly `u` — the first unvisited child —, every child before
it is visited, and in general the returned child is the first child
attaining the strictly greatest score: all scores are `≤` its score and
every earlier child's score is strictly below it (a later equal score
never replaces an earlier best). -/
theorem select_child_prefers_first_unvisited {B M : Type}
    (place : B → M → Option B) (c : ℝ) (rootN : ℕ) (node : Node M) (st : B) (u : Node M)
    (hfind : node.children.find? (fun ch => ch.n == 0) = some u)
    (hw : ∀ ch ∈ node.children, ch.w ≤ ch.n)
    (hN : rootN ≤ 2 ^ 62) (hc0 : 0 ≤ c) (hc2 : c ≤ 2) :
    (∃ i st', select_child place c rootN node st = some (i, u, st') ∧
        node.children.get? i = some u ∧ u.n = 0 ∧
        ∀ k ch', k < i → node.children.get? k = some ch' → ch'.n ≠ 0) ∧
    (∀ i ch st', select_child place c rootN node st = some (i, ch, st') →
        (∀ k xk, node.children.get? k = some xk →
          uct_score c rootN xk ≤ uct_score c rootN ch) ∧
        (∀ k xk, k < i → node.children.get? k = some xk →
          uct_score c rootN xk < uct_score c rootN ch)) := by
  obtain ⟨ju, hgetu, hpu, hearlyu⟩ := find?_first (fun ch => ch.n == 0) node.children hfind
  have hun : u.n = 0 := by simpa using hpu
  have humem := List.get?_mem hgetu
  have hne : node.children ≠ [] := by
    intro hnil
    rw [hnil] at humem
    exact List.not_mem_nil u humem
  have hgu : uct_score c rootN u = DBL_MAX := uct_score_unvisited c rootN u hun
  have hex : ∃ x ∈ node.children, (-1 : ℝ) < uct_score c rootN x :=
    ⟨u, humem, by rw [hgu]; exact neg_one_lt_DBL_MAX⟩
  obtain ⟨j, x, hget, heq, hlt, hmax, hearly⟩ :=
    pickGo_first_argmax (uct_score c rootN) node.children (-1) 0 none hex
  rw [Nat.zero_add] at heq
  have hxn : x.n = 0 := by
    by_contra hxn
    have hbound := uct_score_lt_DBL_MAX c rootN x (hw x (List.get?_mem hget)) hxn hN hc0 hc2
    have hule := hmax ju u hgetu
    rw [hgu] at hule
    linarith
  have hgx : uct_score c rootN x = DBL_MAX := uct_score_unvisited c rootN x hxn
  have hjju : j = ju := by
    rcases lt_trichotomy j ju with h | h | h
    · have hfalse := hearlyu j x h hget
      simp [hxn] at hfalse
    · exact h
    · have hstrict := hearly ju u h hgetu
      rw [hgu, hgx] at hstrict
      exact absurd hstrict (lt_irrefl _)

  subst hjju
  have hxu : x = u := by
    rw [hget] at hgetu
    exact Option.some.inj hgetu
  subst hxu
  have hscres : select_child place c rootN node st =
      some (j, x, apply_move place st x.node_move) := by
    rw [select_child_eq_of_ne_nil place hne, heq]
  constructor
  · refine ⟨j, apply_move place st x.node_move, hscres, hget, hun, ?_⟩
    intro k ch' hk hgetk
    have hfalse := hearlyu k ch' hk hgetk
    simpa using hfalse
  · intro i ch st' hres
    rw [hscres] at hres
    have h1 : (j, x, apply_move place st x.node_move) = (i, ch, st') :=
      Option.some.inj hres
    have hi : j = i := congrArg Prod.fst h1
    have hch : x = ch := congrArg (fun p => p.2.1) h1
    constructor
    · intro k xk hgetk
      rw [← hch]
      exact hmax k xk hgetk
    · intro k xk hk hgetk
      rw [← hch]
      exact hearly k xk (by omega) hgetk

/-- A visited child with a perfect win record (`w = n = 5`). -/
def demoVisited : Node ℕ := Node.mk Side.black (some 0) 5 5 []

/-- An unvisited child (`n = w = 0`). -/
def demoUnvisited : Node ℕ := Node.mk Side.white (some 1) 0 0 []

/-- A node holding the visited high-win-rate child before the unvisited
one, as in the spec's own test sketch for the infinite-score rule. -/
def demoParent : Node ℕ := Node.mk Side.black none 7 5 [demoVisited, demoUnvisited]

/-- Witness for C4: on `demoParent` (a visited child with win rate 1
enumerated first, an unvisited child second), `select_child` with
`c = 1`, root visits 7, returns the unvisited child, at index 1. -/
theorem select_child_prefers_first_unvisited_witness :
    ∃ st', select_child demoPlace 1 7 demoParent [] =
      some (1, demoUnvisited, st') := by
  obtain ⟨hA, _⟩ := select_child_prefers_first_unvisited demoPlace 1 7 demoParent []
    demoUnvisited rfl (by decide) (by norm_num) (by norm_num) (by norm_num)
  obtain ⟨i, st', heq, hget, _, _⟩ := hA
  have hi : i = 1 := by
    rcases i with _ | _ | i2
    · have hvu : demoVisited = demoUnvisited := Option.some.inj hget
      have := congrArg Node.n hvu
      simp [demoVisited, demoUnvisited] at this
    · rfl
    · have : ([demoVisited, demoUnvisited] : List (Node ℕ)).get? (i2 + 2) = none := rfl
      rw [show demoParent.children = [demoVisited, demoUnvisited] from rfl] at hget
      rw [this] at hget
      exact absurd hget (by simp)
  subst hi
  exact ⟨st', heq⟩

/-- C10: on any node with at least one child, when the root's visit count
is at least 1 (as it always is at every `select_child` call site: during
the search loop the root has children only after its first
backpropagation, and the final call happens after the loop) and the
exploration constant is non-negative, every child's score is either
`DBL_MAX` (unvisited) or non-negative — with a non-negative argument
under the square root, so the C++ computation produces no NaN —, hence
some child's score strictly exceeds the initial maximum `-1`, the best
child is assigned, and `select_child` returns a child of the node. -/
theorem select_child_assigns_best_on_visited_root {B M : Type}
    (place : B → M → Option B) (c : ℝ) (rootN : ℕ) (node : Node M) (st : B)
    (hne : node.children ≠ []) (hN : 1 ≤ rootN) (hc : 0 ≤ c) :
    (∀ ch ∈ node.children, uct_score c rootN ch = DBL_MAX ∨
        (0 ≤ uct_score c rootN ch ∧ 0 ≤ Real.log rootN / ch.n)) ∧
    (∃ ch ∈ node.children, (-1 : ℝ) < uct_score c rootN ch) ∧
    (∃ i ch st', select_child place c rootN node st = some (i, ch, st') ∧
        ch ∈ node.children) := by
  have hscores : ∀ ch ∈ node.children, uct_score c rootN ch = DBL_MAX ∨
      (0 ≤ uct_score c rootN ch ∧ 0 ≤ Real.log rootN / ch.n) := by
    intro ch hch
    rcases Nat.eq_zero_or_pos ch.n with h0 | hpos
    · exact Or.inl (uct_score_unvisited c rootN ch h0)
    · refine Or.inr ⟨uct_score_nonneg_of_visited c rootN ch hc
        (Nat.pos_iff_ne_zero.mp hpos), ?_⟩
      exact div_nonneg (Real.log_natCast_nonneg rootN) (Nat.cast_nonneg _)
  have hex : ∃ ch ∈ node.children, (-1 : ℝ) < uct_score c rootN ch := by
    obtain ⟨a, ha⟩ := List.exists_mem_of_ne_nil node.children hne
    rcases hscores a ha with h | h
    · exact ⟨a, ha, by rw [h]; exact neg_one_lt_DBL_MAX⟩
    · exact ⟨a, ha, lt_of_lt_of_le (by norm_num) h.1⟩
  refine ⟨hscores, hex, ?_⟩
  obtain ⟨j, x, hget, heq, _, _, _⟩ :=
    pickGo_first_argmax (uct_score c rootN) node.children (-1) 0 none hex
  rw [Nat.zero_add] at heq
  exact ⟨j, x, apply_move place st x.node_move,
    by rw [select_child_eq_of_ne_nil place hne, heq], List.get?_mem hget⟩

/-- C1, counterexample: the search loop does not descend with `C = √2`.
The `select_child` call inside `MCTSplayer::select` passes the literal
`0.5` (the unused *default* of the `c` parameter is `sqrt(2.0)`), and
`0.5 ≠ √2`. -/
theorem search_constant_ne_sqrt_two : searchC = 1 / 2 ∧ searchC ≠ Real.sqrt 2 := by
  have h1 : searchC = 1 / 2 := by norm_num [searchC]
  refine ⟨h1, ?_⟩
  have h2 : (1 : ℝ) < Real.sqrt 2 := by
    nlinarith [Real.sq_sqrt (by norm_num : (0 : ℝ) ≤ 2), Real.sqrt_nonneg 2]
  intro h
  rw [h1] at h
  rw [← h] at h2
  norm_num at h2

/-- C1, amended: during the search loop, selection descends using the
exploration constant `C = 0.5`, and the final move decision from the root
uses the near-zero constant `C = 10⁻¹²`; both call sites run the same
scoring algorithm — `select_child` — differing only in the constant:
each descent step of `select` is a `select_child` call with `searchC`,
and `take_action`'s final pick is a `select_child` call with `finalC` on
the finished root. -/
theorem search_and_final_share_selection_algorithm {B M : Type}
    (place : B → M → Option B) (whoTurn : B → Side) (who : Side) (σ : ℕ → List M) :
    searchC = 1 / 2 ∧
    finalC = 1 / 1000000000000 ∧
    (∀ (rootN : ℕ) (node : Node M) (st : B),
        select place rootN node st =
          match select_child place searchC rootN node st with
          | none => ([], node, st)
          | some (i, ch, st') =>
            (i :: (select place rootN ch st').1, (select place rootN ch st').2)) ∧
    (∀ (fuel t : ℕ) (b : B),
        take_action place whoTurn who σ fuel t b =
          match select_child place finalC
              (final_tree place whoTurn who σ fuel t b).n
              (final_tree place whoTurn who σ fuel t b) b with
          | some (_, ch, _) => ch.node_move
          | none => none) := by
  refine ⟨by norm_num [searchC], by norm_num [finalC], ?_, ?_⟩
  · intro rootN node st
    rw [select]
    rcases select_child place searchC rootN node st with _ | ⟨i, ch, st'⟩
    · rfl
    · rfl
  · intro fuel t b
    rfl

/-- The per-child score as the specification words it, for comparison
with the implemented `uct_score`: the *real-valued* empirical win rate
`c.w / c.n` plus the exploration term. -/
noncomputable def uct_score_spec (c : ℝ) (rootN : ℕ) (child : Node M) : ℝ :=
  if child.is_unvisited then DBL_MAX
  else ((child.w : ℝ) / (child.n : ℝ)) + c * Real.sqrt (Real.log rootN / child.n)

/-- C2, counterexample: `child->w / child->n` divides the two `int`
counters, so the exploitation term is the *floor* of the win rate, not
the real-valued win rate.  For a child with `w = 1`, `n = 2` under a
root with one visit (`log 1 = 0` kills the exploration term), the
implemented score is `0` while the claimed real-valued score is `1/2`. -/
theorem uct_score_integer_division_refuted :
    uct_score searchC 1 (Node.mk Side.black (some 0) 2 1 ([] : List (Node ℕ))) = 0 ∧
    uct_score_spec searchC 1 (Node.mk Side.black (some 0) 2 1 ([] : List (Node ℕ))) = 1 / 2 ∧
    uct_score searchC 1 (Node.mk Side.black (some 0) 2 1 ([] : List (Node ℕ))) ≠
      uct_score_spec searchC 1 (Node.mk Side.black (some 0) 2 1 ([] : List (Node ℕ))) := by
  have hlog : Real.log ((1 : ℕ) : ℝ) = 0 := by
    rw [Nat.cast_one, Real.log_one]
  have h1 : uct_score searchC 1 (Node.mk Side.black (some 0) 2 1 ([] : List (Node ℕ))) = 0 := by
    rw [uct_score_visited searchC 1 _ (by simp)]
    simp only [Node.w_mk, Node.n_mk, hlog]
    norm_num
  have h2 : uct_score_spec searchC 1 (Node.mk Side.black (some 0) 2 1 ([] : List (Node ℕ)))
      = 1 / 2 := by
    unfold uct_score_spec
    rw [if_neg (by simp [Node.is_unvisited])]
    simp only [Node.w_mk, Node.n_mk, hlog]
    norm_num
  refine ⟨h1, h2, ?_⟩
  rw [h1, h2]
  norm_num

/-- C2, amended: for every visited child evaluated during selection, the
score is the floor (ℕ-division) of `c.w / c.n` plus
`C * sqrt(ln N / c.n)`, where `N` is the visit total of the overall
search root: each step of `select`'s descent scores children by
`select_child` with the same unchanged `rootN` — the overall root's visit
count with which the descent began — not the immediate parent's. -/
theorem uct_score_formula_uses_root_total {B M : Type}
    (place : B → M → Option B) (c : ℝ) (rootN : ℕ) :
    (∀ child : Node M, child.n ≠ 0 →
        uct_score c rootN child =
          ((child.w / child.n : ℕ) : ℝ) + c * Real.sqrt (Real.log rootN / child.n)) ∧
    (∀ (node : Node M) (st : B),
        select place rootN node st =
          match select_child place searchC rootN node st with
          | none => ([], node, st)
          | some (i, ch, st') =>
            (i :: (select place rootN ch st').1, (select place rootN ch st').2)) := by
  constructor
  · intro child hn
    exact uct_score_visited c rootN child hn
  · intro node st
    rw [select]
    rcases select_child place searchC rootN node st with _ | ⟨i, ch, st'⟩
    · rfl
    · rfl

/-- Witness for the amended C2 theorem: concrete evaluation of the score
formula on a visited child with `w = 2`, `n = 3` (floor win rate
`2 / 3 = 0`). -/
theorem uct_score_formula_uses_root_total_witness :
    uct_score 1 4 (Node.mk Side.black (some 0) 3 2 ([] : List (Node ℕ))) =
      ((2 / 3 : ℕ) : ℝ) + 1 * Real.sqrt (Real.log (4 : ℕ) / 3) := by
  have h := (uct_score_formula_uses_root_total
    (demoPlace) 1 4).1 (Node.mk Side.black (some 0) 3 2 ([] : List (Node ℕ))) (by simp)
  simpa using h

/-- Witness for C10: a root with one visited child, root visit count 3,
and the near-zero final exploration constant: `select_child` returns a
child of the root. -/
theorem select_child_assigns_best_on_visited_root_witness :
    ∃ i ch st', select_child demoPlace finalC 3
        (Node.mk Side.black none 3 1 [Node.mk Side.white (some 0) 2 1 []]) [] =
      some (i, ch, st') ∧
      ch ∈ (Node.mk Side.black none 3 1 [Node.mk Side.white (some 0) 2 1 []]).children :=
  (select_child_assigns_best_on_visited_root demoPlace finalC 3
    (Node.mk Side.black none 3 1 [Node.mk Side.white (some 0) 2 1 []]) []
    (by simp) (by norm_num) (by norm_num [finalC])).2.2

/-- C6: for every decision with a non-negative simulation budget `t`
(budgets are the loop bound `simulation_times`; the loop body never runs
for a negative budget, and `ℕ` captures the non-negative case), every
iteration of the search loop ends in a backpropagation whose path starts
at the root, incrementing the root's visit count by exactly one, so after
the loop the root's visit count equals the budget. -/
theorem root_visits_equal_simulation_times {B M : Type}
    (place : B → M → Option B) (whoTurn : B → Side) (who : Side)
    (σ : ℕ → List M) (fuel : ℕ) (b : B) :
    (∀ s : Node M × ℕ,
        (iter_once place whoTurn who σ fuel b s).1.n = s.1.n + 1) ∧
    (∀ t : ℕ, (final_tree place whoTurn who σ fuel t b).n = t) := by
  refine ⟨iter_once_n place whoTurn who σ fuel b, ?_⟩
  intro t
  unfold final_tree
  rw [search_loop_n place whoTurn who σ fuel b t (root0 who, 0)]
  show (root0 (M := M) who).n + t = t
  rw [show (root0 (M := M) who).n = 0 from rfl]
  omega

/-- The statistics invariant of §8: every node in the tree satisfies
`0 ≤ reward_sum ≤ visit_count` (the lower bound is intrinsic to `ℕ`),
recursively through the whole `children` forest. -/
inductive WF {M : Type} : Node M → Prop where
  | mk (pl : Side) (mv : Option M) (n w : ℕ) (cs : List (Node M)) :
      w ≤ n → (∀ c ∈ cs, WF c) → WF (Node.mk pl mv n w cs)

theorem WF_root0 {M : Type} (who : Side) : WF (root0 (M := M) who) :=
  WF.mk _ _ _ _ _ (Nat.le_refl 0) (fun c hc => absurd hc (List.not_mem_nil c))

theorem WF_backpropagation {M : Type} (result : ℕ) (hr : result ≤ 1) :
    ∀ (p : List ℕ) (node : Node M), WF node → WF (backpropagation result p node) := by
  intro p
  induction p with
  | nil =>
    intro node h
    cases h with
    | mk pl mv n w cs hw hcs => exact WF.mk _ _ _ _ _ (by omega) hcs
  | cons i p' ih =>
    intro node h
    cases h with
    | mk pl mv n w cs hw hcs =>
      simp only [backpropagation]
      cases hg : cs.get? i with
      | none => exact WF.mk _ _ _ _ _ (by omega) hcs
      | some ch =>
        refine WF.mk _ _ _ _ _ (by omega) ?_
        intro c hc
        rcases List.mem_or_eq_of_mem_set hc with h' | h'
        · exact hcs c h'
        · rw [h']
          exact ih ch (hcs ch (List.get?_mem hg))

theorem WF_expand_children {B M : Type} (place : B → M → Option B)
    (st : B) (pl : Side) (order : List M) :
    ∀ c ∈ expand_children place st pl order, WF c := by
  intro c hc
  rw [expand_children_eq place st pl order] at hc
  obtain ⟨m, _, hm⟩ := List.mem_map.mp hc
  rw [← hm]
  exact WF.mk _ _ _ _ _ (Nat.le_refl 0) (fun c' hc' => absurd hc' (List.not_mem_nil c'))

theorem WF_expand {B M : Type} (place : B → M → Option B)
    (st : B) (order : List M) (node : Node M) (h : WF node) :
    WF (expand place st order node).1 := by
  cases h with
  | mk pl mv n w cs hw hcs =>
    refine WF.mk _ _ _ _ _ hw ?_
    intro c hc
    rcases List.mem_append.mp hc with h' | h'
    · exact hcs c h'
    · exact WF_expand_children place st pl order c h'

theorem WF_update_at {M : Type} (f : Node M → Node M)
    (hf : ∀ nd : Node M, WF nd → WF (f nd)) :
    ∀ (p : List ℕ) (node : Node M), WF node → WF (update_at f p node) := by
  intro p
  induction p with
  | nil => intro node h; exact hf node h
  | cons i p' ih =>
    intro node h
    cases h with
    | mk pl mv n w cs hw hcs =>
      simp only [update_at]
      cases hg : cs.get? i with
      | none => exact WF.mk _ _ _ _ _ hw hcs
      | some ch =>
        refine WF.mk _ _ _ _ _ hw ?_
        intro c hc
        rcases List.mem_or_eq_of_mem_set hc with h' | h'
        · exact hcs c h'
        · rw [h']
          exact ih ch (hcs ch (List.get?_mem hg))

theorem simulate_result_le_one {B M : Type} (place : B → M → Option B)
    (whoTurn : B → Side) (who : Side) (σ : ℕ → List M) (fuel k : ℕ) (st : B) :
    (simulate place whoTurn who σ fuel k st).1 ≤ 1 := by
  unfold simulate
  rcases simulate_loop place σ fuel k st with ⟨stf, kf⟩
  show (if whoTurn stf = who then 0 else 1) ≤ 1
  by_cases h : whoTurn stf = who
  · rw [if_pos h]
    omega
  · rw [if_neg h]

theorem WF_iter_once {B M : Type} (place : B → M → Option B)
    (whoTurn : B → Side) (who : Side) (σ : ℕ → List M) (fuel : ℕ) (b0 : B)
    (s : Node M × ℕ) (h : WF s.1) :
    WF (iter_once place whoTurn who σ fuel b0 s).1 := by
  unfold iter_once
  rcases hsel : select place s.1.n s.1 b0 with ⟨path, leaf, b1⟩
  dsimp only
  by_cases h0 : leaf.n = 0
  · rw [if_pos h0]
    rcases hsim : simulate place whoTurn who σ fuel (s.2 + 1)
      (apply_move place b1 leaf.node_move) with ⟨result, k'⟩
    show WF (backpropagation result path _)
    have hr : result ≤ 1 := by
      have := simulate_result_le_one place whoTurn who σ fuel (s.2 + 1)
        (apply_move place b1 leaf.node_move)
      rw [hsim] at this
      exact this
    exact WF_backpropagation result hr path _
      (WF_update_at _ (fun nd hnd => WF_expand place b1 (σ s.2) nd hnd) path s.1 h)
  · rw [if_neg h0]
    rcases hsim : simulate place whoTurn who σ fuel s.2 b1 with ⟨result, k'⟩
    show WF (backpropagation result path s.1)
    have hr : result ≤ 1 := by
      have := simulate_result_le_one place whoTurn who σ fuel s.2 b1
      rw [hsim] at this
      exact this
    exact WF_backpropagation result hr path s.1 h

/-- C7: for every node reachable in the tree, at every point during a
decision (i.e. after every prefix `t` of the iterations, the tree being
touched only by whole select/expand/simulate/backpropagate iterations),
`0 ≤ reward_sum ≤ visit_count`: children are created with `n = w = 0`,
and each backpropagation step adds `1` to `n` and a rollout outcome in
`{0, 1}` to `w` on every node of the leaf-to-root path, so the invariant
holds recursively for the whole tree. -/
theorem reward_sum_le_visit_count_invariant {B M : Type}
    (place : B → M → Option B) (whoTurn : B → Side) (who : Side)
    (σ : ℕ → List M) (fuel : ℕ) (b : B) :
    (∀ (k : ℕ) (st : B), (simulate place whoTurn who σ fuel k st).1 ≤ 1) ∧
    (∀ t : ℕ, WF (final_tree place whoTurn who σ fuel t b)) := by
  refine ⟨fun k st => simulate_result_le_one place whoTurn who σ fuel k st, ?_⟩
  have hloop : ∀ (t : ℕ) (s : Node M × ℕ), WF s.1 →
      WF (search_loop place whoTurn who σ fuel b t s).1 := by
    intro t
    induction t with
    | zero => intro s h; exact h
    | succ t ih =>
      intro s h
      exact ih (iter_once place whoTurn who σ fuel b s)
        (WF_iter_once place whoTurn who σ fuel b s h)
  intro t
  exact hloop t (root0 who, 0) (WF_root0 who)

theorem select_child_of_nil {B M : Type} (place : B → M → Option B)
    (c : ℝ) (rootN : ℕ) (node : Node M) (st : B) (h : node.children = []) :
    select_child place c rootN node st = none := by
  unfold select_child
  rw [h]

theorem select_of_nil {B M : Type} (place : B → M → Option B)
    (rootN : ℕ) (node : Node M) (st : B) (h : node.children = []) :
    select place rootN node st = ([], node, st) := by
  rw [select, select_child_of_nil place searchC rootN node st h]

theorem iter_once_children_nil {B M : Type} (place : B → M → Option B)
    (whoTurn : B → Side) (who : Side) (σ : ℕ → List M) (fuel : ℕ) (b : B)
    (hIll : ∀ m : M, place b m = none) (s : Node M × ℕ) (h : s.1.children = []) :
    (iter_once place whoTurn who σ fuel b s).1.children = [] := by
  unfold iter_once
  rw [select_of_nil place s.1.n s.1 b h]
  dsimp only
  by_cases h0 : s.1.n = 0
  · rw [if_pos h0]
    rcases hsim : simulate place whoTurn who σ fuel (s.2 + 1)
      (apply_move place b s.1.node_move) with ⟨result, k'⟩
    show (backpropagation result []
      (update_at (fun nd => (expand place b (σ s.2) nd).1) [] s.1)).children = []
    rw [backpropagation_nil_children]
    show ((expand place b (σ s.2) s.1).1).children = []
    cases hnode : s.1 with
    | mk pl mv n w cs =>
      rw [hnode, Node.children_mk] at h
      subst h
      show ([] ++ expand_children place b pl (σ s.2) : List (Node M)) = []
      rw [List.nil_append, expand_children_eq place b pl (σ s.2)]
      have hf : (σ s.2).filter (fun m => (place b m).isSome) = [] :=
        List.filter_eq_nil_iff.mpr (fun m _ => by rw [hIll m]; simp)
      rw [hf]
      rfl
  · rw [if_neg h0]
    rcases hsim : simulate place whoTurn who σ fuel s.2 b with ⟨result, k'⟩
    show (backpropagation result [] s.1).children = []
    rw [backpropagation_nil_children]
    exact h

/-- C8: `select_child` on a childless node returns the absent result
(`NULL`) rather than failing, and on a board where the agent's side has
no legal move the whole decision returns the "no move" sentinel
(`action()`, modelled `none`) while the root never acquires a child: the
one expansion that runs finds no legal candidate, and no later iteration
expands again. -/
theorem childless_selection_and_terminal_root {B M : Type}
    (place : B → M → Option B) (whoTurn : B → Side) (who : Side)
    (σ : ℕ → List M) (b : B) (hIll : ∀ m : M, place b m = none) :
    (∀ (c : ℝ) (rootN : ℕ) (node : Node M) (st : B),
        node.children = [] → select_child place c rootN node st = none) ∧
    (∀ fuel t : ℕ, (final_tree place whoTurn who σ fuel t b).children = []) ∧
    (∀ fuel t : ℕ, take_action place whoTurn who σ fuel t b = none) := by
  have hnil : ∀ (c : ℝ) (rootN : ℕ) (node : Node M) (st : B),
      node.children = [] → select_child place c rootN node st = none :=
    fun c rootN node st h => select_child_of_nil place c rootN node st h
  have htree : ∀ fuel t : ℕ,
      (final_tree place whoTurn who σ fuel t b).children = [] := by
    intro fuel t
    unfold final_tree
    have hloop : ∀ (t' : ℕ) (s : Node M × ℕ), s.1.children = [] →
        (search_loop place whoTurn who σ fuel b t' s).1.children = [] := by
      intro t'
      induction t' with
      | zero => intro s h; exact h
      | succ t' ih =>
        intro s h
        exact ih (iter_once place whoTurn who σ fuel b s)
          (iter_once_children_nil place whoTurn who σ fuel b hIll s h)
    exact hloop t (root0 who, 0) rfl
  refine ⟨hnil, htree, ?_⟩
  intro fuel t
  show (match select_child place finalC (final_tree place whoTurn who σ fuel t b).n
      (final_tree place whoTurn who σ fuel t b) b with
    | some (_, ch, _) => ch.node_move
    | none => none) = none
  rw [hnil finalC (final_tree place whoTurn who σ fuel t b).n
    (final_tree place whoTurn who σ fuel t b) b (htree fuel t)]

/-- A board interface with no legal move anywhere. -/
def noneBoardPlace : Unit → ℕ → Option Unit := fun _ _ => none

/-- Turn query of the no-legal-move board. -/
def noneBoardWho : Unit → Side := fun _ => Side.black

/-- Witness for C8: on the no-legal-move board the decision returns the
sentinel, the root ends childless, and a childless node's selection is
`NULL`. -/
theorem childless_selection_and_terminal_root_witness :
    take_action noneBoardPlace noneBoardWho Side.black demoOrders 2 3 () = none ∧
    (final_tree noneBoardPlace noneBoardWho Side.black demoOrders 2 3 ()).children = [] ∧
    select_child noneBoardPlace (1 : ℝ) 0 (root0 Side.black) () = none := by
  have h := childless_selection_and_terminal_root noneBoardPlace noneBoardWho
    Side.black demoOrders () (fun _ => rfl)
  exact ⟨h.2.2 2 3, h.2.1 2 3, h.1 1 0 (root0 Side.black) () rfl⟩

/-- C9: the move chosen by a decision is a function of exactly the
configured seed (through the deterministic seeded engine, modelled as the
stream of enumeration orders it produces), the input board, and the
simulation budget: two runs agreeing on those three — with the same game
rules and agent side — return the identical chosen move.  No other input
exists in the model, mirroring that the only randomness source in
`take_action` is the single `engine` member seeded at construction. -/
theorem take_action_deterministic_under_seed {B M : Type}
    (place : B → M → Option B) (whoTurn : B → Side) (who : Side)
    (rng : ℕ → ℕ → List M) (seed₁ seed₂ : ℕ) (b₁ b₂ : B)
    (fuel t₁ t₂ : ℕ)
    (hseed : seed₁ = seed₂) (hb : b₁ = b₂) (ht : t₁ = t₂) :
    take_action place whoTurn who (rng seed₁) fuel t₁ b₁ =
      take_action place whoTurn who (rng seed₂) fuel t₂ b₂ := by
  subst hseed
  subst hb
  subst ht
  rfl

/-- A seeded-engine model for the determinism witness: every seed yields
the constant `[0, 1]` order stream. -/
def demoRng : ℕ → ℕ → List ℕ := fun _ _ => [0, 1]

/-- Witness for C9: two runs with seed 42, the empty demo board and
budget 5 agree. -/
theorem take_action_deterministic_under_seed_witness :
    take_action demoPlace demoWho Side.black (demoRng 42) 3 5 [] =
      take_action demoPlace demoWho Side.black (demoRng 42) 3 5 [] :=
  take_action_deterministic_under_seed demoPlace demoWho Side.black demoRng
    42 42 [] [] 3 5 5 rfl rfl rfl

end NoGo
